import Mathlib

/-!
Verification development for `slack-archiver.py`: a shallow embedding of
the atomic-write primitive (`open_atomic`), the URL-to-path encoding
(`url_to_filename`), the download queue and worker loop (`Downloader`),
and the per-channel incremental sync (`Channel._refresh_messages`),
together with proofs of the specified properties.

File contents are modelled as `List Char`; a filesystem is an association
list from paths to contents where the most recent write shadows older
entries (matching rename-over semantics).  Timestamps are modelled as
natural numbers; the calendar-day name `"%Y-%m-%d"` of a timestamp is
modelled by the day index `ts / 86400` (the date string is an injective,
monotone encoding of this index, and lexicographic order on the date
strings agrees with numeric order on the index).
-/

set_option autoImplicit false

/-! ### open_atomic (slack-archiver.py lines 33-156) -/

/--
State of one `open_atomic` handle together with the contents of the two
filesystem paths it touches: the target path and the temporary sibling
path (`.name.temp`).  `none` means the path does not exist.
-/
structure OAState where
  fs_target : Option (List Char)
  fs_temp : Option (List Char)
  closed : Bool
  aborted : Bool
  abort_error : Option (List Char)
deriving DecidableEq

/--
Construction of an `open_atomic` handle (lines 99-107): the opener opens
the temporary sibling path in mode `"w"`, creating or truncating it, so
the temporary file exists with empty content; the target path is left
untouched.
-/
def open_atomic (fs_target : Option (List Char)) : OAState :=
  { fs_target := fs_target
    fs_temp := some []
    closed := false
    aborted := false
    abort_error := none }

/--
Writing a chunk through the handle (`__getattr__` delegates `write` to
the underlying file, line 155-156): the chunk is appended to the
temporary file; the target path is never touched by a write.
-/
def OAState.write (s : OAState) (chunk : List Char) : OAState :=
  { s with fs_temp := some ((s.fs_temp.getD []) ++ chunk) }

/-- A whole sequence of writes through the handle. -/
def OAState.writeAll (s : OAState) (chunks : List (List Char)) : OAState :=
  chunks.foldl OAState.write s

/--
Model of `open_atomic.abort` (lines 131-144), on a POSIX system
(`os.name != "nt"`): `os.remove(self.temp_name)` deletes the temporary
file; if the removal raises `OSError` (`removeFails`), the exception is
caught and stored in `abort_error` instead of being re-raised.  In both
cases the handle ends closed and aborted, and the target path is never
touched.  `abort` is a total function: it never raises.
-/
def OAState.abort (s : OAState) (removeFails : Bool) : OAState :=
  if removeFails then
    { s with abort_error := some ("OSError".toList), closed := true, aborted := true }
  else
    { s with fs_temp := none, closed := true, aborted := true }

/--
Model of `open_atomic.close` (lines 116-129).  On success the temporary
file is renamed over the target in one step (`os.rename`), so the target
atomically receives the full temporary content.  If the close/rename
raises (`renameFails`), `abort` runs (with its own possible removal
failure `removeFails`) and the exception is re-raised: the returned
`Bool` is `true` exactly when `close` raises.
-/
def OAState.close (s : OAState) (renameFails removeFails : Bool) : OAState × Bool :=
  if s.closed then (s, false)
  else if renameFails then (s.abort removeFails, true)
  else ({ s with fs_target := s.fs_temp, fs_temp := none, closed := true }, false)

/-- Concatenation of all chunks written through a handle. -/
def joinChunks (chunks : List (List Char)) : List Char :=
  chunks.foldr (· ++ ·) []

/-! ### url_to_filename (slack-archiver.py lines 161-170) -/

/-- Model of Python `str.startswith`: first argument is the string, second the pattern. -/
def startswith : List Char → List Char → Bool
  | _, [] => true
  | [], _ :: _ => false
  | c :: cs, p :: ps => c = p && startswith cs ps

/--
Match of the regex `\?t=[^&]*$` at the head of the list: the list starts
with `?t=` and the remainder (which the match consumes up to the end of
the string) contains no `&`.
-/
def isQTEMatch (l : List Char) : Bool :=
  decide (l.take 3 = ('?' :: 't' :: '=' :: [])) && !((l.drop 3).contains '&')

/--
Model of `_t_re.sub("", url)` for `_t_re = re.compile("\?t=[^&]*$")`:
`re.sub` replaces the leftmost match with the empty string, and since the
pattern is anchored at the end of the string the match extends to the end,
so everything from the first matching position on is dropped.
-/
def stripQT : List Char → List Char
  | [] => []
  | c :: cs => if isQTEMatch (c :: cs) then [] else c :: stripQT cs

/-- Occurrence test for the substring `?t=`, used to state when the regex cannot match inside a prefix. -/
def hasQTE : List Char → Bool
  | [] => false
  | c :: cs => (decide ((c :: cs).take 3 = ('?' :: 't' :: '=' :: []))) || hasQTE cs

/-- The always-safe characters of Python 2 `urllib.quote`: letters, digits, and `_.-`. -/
def urlAlwaysSafe (c : Char) : Bool :=
  ('A' ≤ c && c ≤ 'Z') || ('a' ≤ c && c ≤ 'z') || ('0' ≤ c && c ≤ '9')
    || c = '_' || c = '.' || c = '-'

/-- Uppercase hexadecimal digit, as used by `urllib.quote` percent-escapes. -/
def hexDigit (n : Nat) : Char :=
  if n < 10 then Char.ofNat ('0'.toNat + n) else Char.ofNat ('A'.toNat + (n - 10))

/-- Percent-encoding of a single byte (URLs here are ASCII, one byte per character). -/
def quoteChar (c : Char) : List Char :=
  if urlAlwaysSafe c then [c]
  else '%' :: hexDigit (c.toNat / 16 % 16) :: hexDigit (c.toNat % 16) :: []

/-- Model of `urllib.quote(url, safe="")`: every character outside the always-safe set is percent-escaped. -/
def urllib_quote : List Char → List Char
  | [] => []
  | c :: cs => quoteChar c ++ urllib_quote cs

/--
Length bounding step of `url_to_filename` (lines 168-169): a quoted URL
longer than 190 characters is replaced by its first 50 characters, a `+`,
a content hash of the whole quoted URL, a `+`, and its last 50
characters.  The hash (`sha256(...).hexdigest()` in the source) is passed
in as a parameter; the properties proved here hold for every hash
function.
-/
def lengthBound (sha256 : List Char → List Char) (url : List Char) : List Char :=
  if url.length > 190 then
    url.take 50 ++ '+' :: sha256 url ++ '+' :: url.drop (url.length - 50)
  else url

/--
Model of `url_to_filename` (lines 164-170): URLs under
`https://files.slack.com` first have a trailing `?t=...` token stripped
by `_t_re`, then the URL is percent-encoded with no safe characters, then
the length bound is applied.
-/
def url_to_filename (sha256 : List Char → List Char) (url : List Char) : List Char :=
  lengthBound sha256
    (urllib_quote
      (if startswith url ("https://files.slack.com".toList) then stripQT url else url))

/-! ### Filesystem model shared by the Downloader and the sync engine -/

/--
A filesystem region as an association list from paths to contents.  A
write (always an atomic rename performed by `open_atomic.close`) prepends
an entry; lookup takes the most recent entry, so later writes shadow
older ones, matching rename-over-existing semantics.
-/
abbrev FileSys := List (List Char × List Char)

/-- Content at a path, `none` when the path does not exist. -/
def fsRead (fs : FileSys) (p : List Char) : Option (List Char) :=
  (fs.find? (fun kv => kv.1 == p)).map Prod.snd

/-- Model of `os.path.exists` over the filesystem region. -/
def fsExists (fs : FileSys) (p : List Char) : Bool :=
  (fs.find? (fun kv => kv.1 == p)).isSome

/-- Atomic installation of full content at a path (the rename step of `open_atomic.close`). -/
def fsWrite (fs : FileSys) (p c : List Char) : FileSys :=
  (p, c) :: fs

/-! ### Downloader (slack-archiver.py lines 172-292) -/

/--
State of the `Downloader` shared between workers: the files directory,
the set of lock-marker names present under `_lockdir`, and the bounded
work queue of `(url, target)` items (`queue.get` pops at the front,
`queue.put` appends at the back).  Paths are relative to the downloader
root `self.path`.
-/
structure DLState where
  files : FileSys
  locks : List (List Char)
  queue : List (List Char × List Char)
deriving DecidableEq

/--
Model of Python `str.rpartition(sep)` for a one-character separator:
splits at the last occurrence of the separator into
`(before, separator, after)`; when the separator does not occur the
result is `("", "", s)`.
-/
def rpartition (l : List Char) (sep : Char) : List Char × List Char × List Char :=
  match l with
  | [] => ([], [], [])
  | c :: cs =>
    let r := rpartition cs sep
    if r.2.1.isEmpty then
      if c = sep then ([], [sep], cs) else ([], [], c :: cs)
    else (c :: r.1, r.2.1, r.2.2)

/-- Result of `requests.get(url, stream=True)`: either a response (status, headers, body chunks) or a raised transport exception. -/
inductive Fetch where
  | ok (status : Nat) (headers : List (List Char × List Char)) (body : List (List Char))
  | exc (e : List Char)
deriving DecidableEq

/-- Outcome of one iteration of the worker loop `Downloader._downloader`. -/
inductive Outcome where
  /-- The iteration finished (normally or via `continue`) and the worker proceeds to the next queued item. -/
  | cont
  /-- The worker received the `None` sentinel and returned. -/
  | ret
  /-- An exception escaped the `except` clause: the worker thread terminates. -/
  | died
deriving DecidableEq

/-- Injection point of an unexpected exception in the `try` body of the worker loop, for the fault model of lines 266-269. -/
inductive Fault where
  | nofault
  /-- The exception is raised before the lock marker is created. -/
  | beforeLock
  /-- The exception is raised while the worker holds the lock marker. -/
  | afterLock
deriving DecidableEq

/-- Header block of a successful response meta file: one `key: value` line per header, joined by newlines. -/
def headerLines (headers : List (List Char × List Char)) : List Char :=
  match headers with
  | [] => []
  | (k, v) :: [] => k ++ ':' :: ' ' :: v
  | (k, v) :: rest => k ++ ':' :: ' ' :: v ++ '\n' :: headerLines rest

/--
One iteration of the worker loop `Downloader._downloader`
(lines 223-272), processing the item just popped from the queue
(`None` models the shutdown sentinel):

* sentinel: the worker returns (line 228-229);
* the target already exists: `continue` (line 231-232);
* `lockdir.mkdir()` fails because the marker exists: `continue`
  (lines 235-239);
* `requests.get` raises: a meta file recording the synthetic status 999
  and the captured error is atomically written, no content file is
  written, and the loop continues (lines 242-248);
* success: the content file and the meta file (status line, then one
  header per line) are atomically written (lines 249-259; the `with`
  block closes the content handle first, then the meta handle);
* `fault` models an unexpected exception in the `try` body: the
  `except` clause pushes the item back onto the queue and re-raises,
  killing the worker (lines 266-269).

In every path that created the lock marker, the `finally` clause removes
it again (lines 270-272).
-/
def downloaderIter (fetch : List Char → Fetch) (fault : Fault) (st : DLState)
    (item : Option (List Char × List Char)) : DLState × Outcome :=
  match item with
  | none => (st, Outcome.ret)
  | some (url, target) =>
    if fault = Fault.beforeLock then
      ({ st with queue := st.queue ++ [(url, target)] }, Outcome.died)
    else if fsExists st.files target then (st, Outcome.cont)
    else
      let bjn := rpartition target '/'
      let base := bjn.1
      let joiner := bjn.2.1
      let name := bjn.2.2
      if st.locks.contains name then (st, Outcome.cont)
      else
        let locks₁ := name :: st.locks
        if fault = Fault.afterLock then
          ({ st with locks := locks₁.erase name, queue := st.queue ++ [(url, target)] },
            Outcome.died)
        else
          let meta_file := base ++ joiner ++ ("meta-".toList) ++ name ++ (".txt".toList)
          match fetch url with
          | Fetch.exc e =>
            ({ st with
                files := fsWrite st.files meta_file (("999\nException: ".toList) ++ e)
                locks := locks₁.erase name }, Outcome.cont)
          | Fetch.ok status headers body =>
            ({ st with
                files := fsWrite (fsWrite st.files target (joinChunks body)) meta_file
                  (Nat.toDigits 10 status ++ '\n' :: headerLines headers)
                locks := locks₁.erase name }, Outcome.cont)

/--
Model of `Queue.put_nowait` on a bounded queue (`Queue(maxsize=5000)`):
appends when the queue is below capacity, and returns `none` (the
`Queue.Full` exception) when the queue is already full.
-/
def put_nowait (maxsize : Nat) (q : List (List Char × List Char)) (x : List Char × List Char) :
    Option (List (List Char × List Char)) :=
  if q.length < maxsize then some (q ++ [x]) else none

/--
The pending-snapshot loading step of `Downloader.__init__`
(lines 182-187): every entry of `pending.json` is enqueued with
`put_nowait` onto the freshly created queue of capacity 5000; `none`
models the `Queue.Full` exception escaping the constructor.
-/
def loadPending (pending : List (List Char × List Char)) :
    Option (List (List Char × List Char)) :=
  pending.foldlM (fun q item => put_nowait 5000 q item) []

/--
Model of `Downloader.add` (lines 274-278): for each URL the deterministic
destination path is computed with `url_to_filename`; if a file already
exists there the URL is skipped, otherwise `(url, path)` is enqueued.
The `(label, url)` pairs of the source are modelled by their URLs.
-/
def Downloader.add (sha256 : List Char → List Char) (dl : DLState) (urls : List (List Char)) :
    DLState :=
  urls.foldl
    (fun d url =>
      let download_path := url_to_filename sha256 url
      if fsExists d.files download_path then d
      else { d with queue := d.queue ++ [(url, download_path)] })
    dl

/-! ### Two workers racing on a duplicated download target

The same URL submitted twice yields two queue items with the same
`(url, target)` pair (the destination is a deterministic function of the
URL).  Two workers each pop one copy; the model below interleaves their
atomic steps against the shared filesystem state.  Program counters map
to source lines of `Downloader._downloader` as follows:

* `pc = 0`: about to run the existence check `os.path.exists(target)`
  (line 231); skips to `pc = 5` when the content file exists;
* `pc = 1`: about to attempt `lockdir.mkdir()` (line 236); skips to
  `pc = 5` when the marker exists, otherwise creates it;
* `pc = 2`: fetch succeeded, about to close `open_atomic(target)`,
  installing the content file (lines 249-259; the content handle is
  closed before the meta handle);
* `pc = 3`: about to close `open_atomic(meta_file)`, installing the meta
  file and completing the download;
* `pc = 4`: about to run the `finally` clause `lockdir.rmdir()`
  (lines 270-272);
* `pc = 5`: done with this item (either skipped or downloaded; `dl*`
  records which).

Since both copies share one target path, the content file and the meta
file are each a single path, modelled by one Boolean apiece.
-/

/-- Shared state of the two racing workers. -/
structure RaceState where
  pcA : Fin 6
  pcB : Fin 6
  /-- The lock marker named after the target's base name is present. -/
  lock : Bool
  /-- The content file exists at the target path. -/
  content : Bool
  /-- The meta file exists. -/
  meta : Bool
  /-- Worker A performed the full download of its copy. -/
  dlA : Bool
  /-- Worker B performed the full download of its copy. -/
  dlB : Bool
deriving DecidableEq

/-- One atomic step of worker A (`w = true`) or worker B (`w = false`). -/
def raceStep (w : Bool) (s : RaceState) : RaceState :=
  let pc := if w then s.pcA else s.pcB
  let setPc : RaceState → Fin 6 → RaceState :=
    fun t p => if w then { t with pcA := p } else { t with pcB := p }
  if pc.val = 0 then
    if s.content then setPc s 5 else setPc s 1
  else if pc.val = 1 then
    if s.lock then setPc s 5 else setPc { s with lock := true } 2
  else if pc.val = 2 then
    setPc { s with content := true } 3
  else if pc.val = 3 then
    if w then setPc { s with meta := true, dlA := true } 4
    else setPc { s with meta := true, dlB := true } 4
  else if pc.val = 4 then
    setPc { s with lock := false } 5
  else s

/-- Initial race state: the same URL was submitted twice before either fetch started, so neither file exists and no marker is held. -/
def raceInit : RaceState :=
  { pcA := 0, pcB := 0, lock := false, content := false, meta := false,
    dlA := false, dlB := false }

/-- Run of the race under a schedule: each entry picks the worker that performs the next atomic step (`true` is A). -/
def raceRun (sched : List Bool) : RaceState :=
  sched.foldl (fun s w => raceStep w s) raceInit

/-- A worker with this program counter currently holds the lock marker. -/
def inCrit (pc : Fin 6) : Bool := pc.val = 2 || pc.val = 3 || pc.val = 4

/-- A worker with this program counter has already installed the content file. -/
def wroteContent (pc : Fin 6) (dl : Bool) : Bool :=
  pc.val = 3 || pc.val = 4 || (pc.val = 5 && dl)

/-- A worker with this program counter has already installed the meta file. -/
def wroteMeta (pc : Fin 6) (dl : Bool) : Bool :=
  pc.val = 4 || (pc.val = 5 && dl)

/-- Inductive invariant of the race: mutual exclusion via the lock marker, and bookkeeping tying the on-disk Booleans to worker progress. -/
def raceInv (s : RaceState) : Bool :=
  (s.lock = (inCrit s.pcA || inCrit s.pcB)) &&
  !(inCrit s.pcA && inCrit s.pcB) &&
  (s.content = (wroteContent s.pcA s.dlA || wroteContent s.pcB s.dlB)) &&
  (s.meta = (wroteMeta s.pcA s.dlA || wroteMeta s.pcB s.dlB)) &&
  (!s.dlA || s.pcA.val = 4 || s.pcA.val = 5) &&
  (!s.dlB || s.pcB.val = 4 || s.pcB.val = 5) &&
  (!(s.pcA.val = 4) || s.dlA) &&
  (!(s.pcB.val = 4) || s.dlB) &&
  (!(s.pcA.val = 5 && !s.dlA) || (s.content || inCrit s.pcB || s.dlB)) &&
  (!(s.pcB.val = 5 && !s.dlB) || (s.content || inCrit s.pcA || s.dlA))

/-! ### Channel sync (slack-archiver.py lines 295-364) -/

/--
A message record: the timestamp used for ordering and as the resume
cursor, the remaining payload (opaque to the sync engine), and the URLs
of the file/attachment references that `Downloader.add_message`
(lines 280-292) extracts from the `file` and `attachments` fields via
`pluck` (`url_private_download`, `thumb_480`, `service_icon`,
`thumb_url`).
-/
structure Msg where
  ts : Nat
  payload : List Char
  refs : List (List Char)
deriving DecidableEq

instance : Inhabited Msg := ⟨{ ts := 0, payload := [], refs := [] }⟩

/-- Comparison key of `msgs.sort(key=lambda m: m["ts"])` (line 342). -/
def tsLe (a b : Msg) : Bool := a.ts ≤ b.ts

/-- Ordering of message records by timestamp, as a relation. -/
def msgLe (a b : Msg) : Prop := a.ts ≤ b.ts

/--
Model of `ts2ymd` (line 344): the calendar day of a timestamp, as a day
index.  The on-disk name `"%Y-%m-%d"` is an injective monotone encoding
of this index, so equality and order of day names coincide with equality
and order of day indices.
-/
def dayOf (ts : Nat) : Nat := ts / 86400

/--
State of one channel's sync: the per-day archive (day index to the
record list of that day file, `[]` when the file does not exist), the
resume cursor `latest_ts`, and the shared downloader.
-/
structure SyncState where
  archive : Nat → List Msg
  latest_ts : Nat
  dl : DLState

/-- Pointwise update of the archive at one day (the atomic rewrite of that day file). -/
def updateDay (a : Nat → List Msg) (d : Nat) (v : List Msg) : Nat → List Msg :=
  fun d' => if d' = d then v else a d'

/--
Model of `Downloader.add_message` (lines 280-292): submits the
file/attachment reference URLs of one message to the downloader.
-/
def add_message (sha256 : List Char → List Char) (dl : DLState) (m : Msg) : DLState :=
  Downloader.add sha256 dl m.refs

/--
The reference-enqueueing loop of lines 356-358: each record of the run
carrying a file or attachment reference is submitted to the downloader.
A record without references passes through `Downloader.add` with an
empty URL list, which leaves the state unchanged, so the `"file" in msg
or "attachments" in msg` guard is modelled by the emptiness of `refs`.
-/
def runEnqueue (sha256 : List Char → List Char) (dl : DLState) (run : List Msg) : DLState :=
  run.foldl (fun d m => if m.refs.isEmpty then d else add_message sha256 d m) dl

/--
The intermediate states of processing one same-day run `day_msgs`
inside `Channel._refresh_messages` (lines 346-362), in program order:

* the entry state;
* after lines 356-358: every file/attachment reference of the run has
  been submitted to the downloader — the day file is not yet written;
* after lines 359-360: the merged list `cur` (existing day file content
  extended with the run) has been atomically written to the day file;
* after lines 361-362: the resume cursor advanced to the run's last
  timestamp when that is greater.
-/
def runStates (sha256 : List Char → List Char) (st : SyncState) (day : Nat)
    (day_msgs : List Msg) : List SyncState :=
  let cur := st.archive day ++ day_msgs
  let st₁ : SyncState := { st with dl := runEnqueue sha256 st.dl day_msgs }
  let st₂ : SyncState := { st₁ with archive := updateDay st₁.archive day cur }
  let lastTs := (day_msgs.getLastD default).ts
  let st₃ : SyncState :=
    { st₂ with latest_ts := if lastTs > st₂.latest_ts then lastTs else st₂.latest_ts }
  [st, st₁, st₂, st₃]

/-- Final state of processing one same-day run (the last of `runStates`). -/
def processRun (sha256 : List Char → List Char) (st : SyncState) (day : Nat)
    (day_msgs : List Msg) : SyncState :=
  (runStates sha256 st day day_msgs).getLastD st

/-- Contiguous same-key runs of a list, as produced by `itertools.groupby` (line 345). -/
def groupRuns (key : Msg → Nat) : List Msg → List (Nat × List Msg)
  | [] => []
  | x :: xs =>
    match groupRuns key xs with
    | [] => [(key x, [x])]
    | (k, run) :: rest =>
      if key x = k then (k, x :: run) :: rest
      else (key x, [x]) :: (k, run) :: rest

/-- Concatenation of the runs of a run list, used to relate `groupRuns` back to the page it partitions. -/
def joinRuns (runs : List (Nat × List Msg)) : List Msg :=
  runs.foldr (fun p r => p.2 ++ r) []

/-- The inner loop of lines 345-362: merge a list of same-day runs into the state in order. -/
def foldRuns (sha256 : List Char → List Char) (st : SyncState)
    (runs : List (Nat × List Msg)) : SyncState :=
  runs.foldl (fun s p => processRun sha256 s p.1 p.2) st

/--
Processing of one fetched page of `Channel._refresh_messages`
(lines 341-362): the page is sorted by timestamp, partitioned into
contiguous same-day runs, and each run is merged into its day file in
order.
-/
def processPage (sha256 : List Char → List Char) (st : SyncState) (msgs : List Msg) :
    SyncState :=
  foldRuns sha256 st (groupRuns (fun m => dayOf m.ts) (msgs.mergeSort tsLe))

/-- Maximum timestamp occurring in a list of records (0 when empty). -/
def maxTs (msgs : List Msg) : Nat :=
  msgs.foldl (fun a m => max a m.ts) 0

/--
Invariant of the on-disk archive of one channel: every day file is
sorted by timestamp, and every record sits in the day file named by its
own calendar day.
-/
def dayInv (archive : Nat → List Msg) : Prop :=
  ∀ d, (archive d).Pairwise msgLe ∧ ∀ m ∈ archive d, dayOf m.ts = d

/-- Invariant of a sync state: the archive invariant, plus the resume cursor dominating every persisted timestamp. -/
def SyncInv (st : SyncState) : Prop :=
  dayInv st.archive ∧ ∀ d, ∀ m ∈ st.archive d, m.ts ≤ st.latest_ts

/-- One page returned by `slack.channels.history`: the records and the `has_more` flag. -/
structure Page where
  msgs : List Msg
  has_more : Bool

/--
The pagination loop of `Channel._refresh_messages` (lines 333-364):
repeatedly fetch the history since the current cursor, process the page,
and stop when the remote reports no further pages.  The remote source is
a function from the cursor to the returned page; `fuel` bounds the
number of iterations (each run of the loop performs finitely many).
-/
def refreshLoop (sha256 : List Char → List Char) (remote : Nat → Page) (fuel : Nat)
    (st : SyncState) : SyncState :=
  match fuel with
  | 0 => st
  | fuel + 1 =>
    let p := remote st.latest_ts
    let st' := processPage sha256 st p.msgs
    if p.has_more then refreshLoop sha256 remote fuel st' else st'

/-- Greatest day name among the existing day files (the first element of `iter_archives(reverse=True)`, line 327). -/
def latestDay (days : List Nat) : Nat := days.foldr max 0

/--
Derivation of the resume cursor (lines 327-331): the timestamp of the
last record of the lexicographically greatest day file, or 0 when there
is no day file (or the latest one is empty).  `days` lists the day
indices of the existing day files.
-/
def initial_latest_ts (archive : Nat → List Msg) (days : List Nat) : Nat :=
  match (archive (latestDay days)).getLast? with
  | some m => m.ts
  | none => 0

/-! ## Theorems -/

/-! ### C1: atomicity of open_atomic -/

theorem writeAll_fs_target (s : OAState) (chunks : List (List Char)) :
    (s.writeAll chunks).fs_target = s.fs_target := by
  induction chunks generalizing s with
  | nil => rfl
  | cons c cs ih => simpa [OAState.writeAll, OAState.write] using ih (s.write c)

theorem writeAll_closed (s : OAState) (chunks : List (List Char)) :
    (s.writeAll chunks).closed = s.closed := by
  induction chunks generalizing s with
  | nil => rfl
  | cons c cs ih => simpa [OAState.writeAll, OAState.write] using ih (s.write c)

theorem writeAll_fs_temp (chunks : List (List Char)) (s : OAState) (a : List Char)
    (h : s.fs_temp = some a) :
    (s.writeAll chunks).fs_temp = some (a ++ joinChunks chunks) := by
  induction chunks generalizing s a with
  | nil => simpa [OAState.writeAll, joinChunks] using h
  | cons c cs ih =>
    have step : (s.write c).fs_temp = some (a ++ c) := by
      simp [OAState.write, h]
    have := ih (s.write c) (a ++ c) step
    simpa [OAState.writeAll, joinChunks, List.append_assoc] using this

/--
C1.  Atomicity and abort behaviour of `open_atomic`: for any initial
target content `t0` (including absence) and any sequence of chunks
written through the handle,

* at every point during writing the target path still holds exactly
  `t0` (writes only touch the temporary sibling path), so no partially
  written file is ever observable at the target;
* an explicit `abort` leaves the target exactly as it was before the
  write began, removes the temporary file when the removal succeeds,
  and when the removal fails records the error in `abort_error`
  instead of raising (`abort` is a total function in the model: it
  always returns a state, never an exception);
* when `close` fails at the rename, `abort` runs, the exception is
  re-raised (`close` reports `true`), and the target is exactly as
  before the write began;
* a successful `close` installs the full written content at the target
  in one rename, so a reader sees either the fully-old or fully-new
  content.
-/
theorem open_atomic_abort_preserves_target (t0 : Option (List Char))
    (chunks : List (List Char)) (removeFails : Bool) :
    (∀ n, ((open_atomic t0).writeAll (chunks.take n)).fs_target = t0) ∧
    (((open_atomic t0).writeAll chunks).abort removeFails).fs_target = t0 ∧
    (removeFails = false →
      (((open_atomic t0).writeAll chunks).abort removeFails).fs_temp = none) ∧
    (removeFails = true →
      ((((open_atomic t0).writeAll chunks).abort removeFails).abort_error).isSome = true) ∧
    (((open_atomic t0).writeAll chunks).abort removeFails).aborted = true ∧
    (∀ rmF, (((open_atomic t0).writeAll chunks).close true rmF).1.fs_target = t0 ∧
      (((open_atomic t0).writeAll chunks).close true rmF).2 = true) ∧
    (((open_atomic t0).writeAll chunks).close false removeFails).1.fs_target
      = some (joinChunks chunks) := by
  have htgt : ∀ cs : List (List Char), ((open_atomic t0).writeAll cs).fs_target = t0 :=
    fun cs => writeAll_fs_target (open_atomic t0) cs
  have hcl : ((open_atomic t0).writeAll chunks).closed = false :=
    writeAll_closed (open_atomic t0) chunks
  have htmp : ((open_atomic t0).writeAll chunks).fs_temp = some (joinChunks chunks) := by
    simpa using writeAll_fs_temp chunks (open_atomic t0) [] rfl
  refine ⟨fun n => htgt (chunks.take n), ?_, ?_, ?_, ?_, ?_, ?_⟩
  · cases removeFails <;> simp [OAState.abort, htgt chunks]
  · intro h; subst h; simp [OAState.abort]
  · intro h; subst h; simp [OAState.abort]
  · cases removeFails <;> simp [OAState.abort]
  · intro rmF
    cases rmF <;> simp [OAState.close, hcl, OAState.abort, htgt chunks]
  · simp [OAState.close, hcl, htmp]

theorem open_atomic_abort_preserves_target_witness :
    ((((open_atomic (some ('x' :: []))).writeAll (('a' :: []) :: ('b' :: []) :: [])).abort
        false).fs_target = some ('x' :: [])) ∧
    ((((open_atomic (some ('x' :: []))).writeAll (('a' :: []) :: ('b' :: []) :: [])).abort
        false).fs_temp = none) ∧
    ((((open_atomic (some ('x' :: []))).writeAll (('a' :: []) :: ('b' :: []) :: [])).close
        false false).1.fs_target = some ('a' :: 'b' :: [])) :=
  ⟨(open_atomic_abort_preserves_target (some ('x' :: [])) (('a' :: []) :: ('b' :: []) :: [])
      false).2.1,
    (open_atomic_abort_preserves_target (some ('x' :: [])) (('a' :: []) :: ('b' :: []) :: [])
      false).2.2.1 rfl,
    (open_atomic_abort_preserves_target (some ('x' :: [])) (('a' :: []) :: ('b' :: []) :: [])
      false).2.2.2.2.2.2⟩

/-! ### C9: trailing token stripping in url_to_filename -/

theorem startswith_append (x : List Char) :
    ∀ (base p : List Char), startswith base p = true → startswith (base ++ x) p = true := by
  intro base
  induction base with
  | nil =>
    intro p h
    cases p with
    | nil => simp [startswith]
    | cons q qs => simp [startswith] at h
  | cons c cs ih =>
    intro p h
    cases p with
    | nil => simp [startswith]
    | cons q qs =>
      simp [startswith] at h ⊢
      exact ⟨h.1, ih qs h.2⟩

theorem stripQT_eq_self : ∀ (l : List Char), hasQTE l = false → stripQT l = l := by
  intro l
  induction l with
  | nil => intro _; rfl
  | cons c cs ih =>
    intro h
    rw [hasQTE, Bool.or_eq_false_iff] at h
    have hmatch : isQTEMatch (c :: cs) = false := by
      rw [isQTEMatch, Bool.and_eq_false_iff]
      left
      exact h.1
    rw [stripQT, hmatch]
    simp [ih h.2]

theorem stripQT_append_qt (t : List Char) (ht : t.contains '&' = false) :
    ∀ (base : List Char), hasQTE base = false →
      stripQT (base ++ '?' :: 't' :: '=' :: t) = base := by
  intro base
  induction base with
  | nil =>
    intro _
    have hm : isQTEMatch ('?' :: 't' :: '=' :: t) = true := by
      rw [isQTEMatch]
      have h3 : ('?' :: 't' :: '=' :: t).take 3 = ('?' :: 't' :: '=' :: []) := rfl
      have hd : ('?' :: 't' :: '=' :: t).drop 3 = t := rfl
      rw [h3, hd, ht]
      rfl
    simp [stripQT, hm]
  | cons c cs ih =>
    intro h
    rw [hasQTE, Bool.or_eq_false_iff] at h
    have hmatch : isQTEMatch (c :: (cs ++ '?' :: 't' :: '=' :: t)) = false := by
      rcases cs with _ | ⟨d, _ | ⟨e, rest⟩⟩
      · simp +decide [isQTEMatch]
      · simp +decide [isQTEMatch]
      · rw [isQTEMatch, Bool.and_eq_false_iff]
        left
        have h3 : (c :: ((d :: e :: rest) ++ '?' :: 't' :: '=' :: t)).take 3
            = (c :: d :: e :: rest).take 3 := rfl
        rw [h3]
        exact h.1
    rw [List.cons_append, stripQT, hmatch]
    simp [ih h.2]

/--
C9.  For URLs under `https://files.slack.com`, `url_to_filename` strips
a trailing `?t=...` token (the regex `\?t=[^&]*$`) before
percent-encoding: two such URLs differing only in that token map to the
same destination path (so they are deduplicated as one download), and
both map to the path of the base URL without the token.  For every URL
not under that prefix no stripping occurs: the result is the quoted,
length-bounded URL itself, token included.
-/
theorem url_to_filename_strip_t (sha256 : List Char → List Char) (base t1 t2 : List Char)
    (hpre : startswith base ("https://files.slack.com".toList) = true)
    (hbase : hasQTE base = false)
    (h1 : t1.contains '&' = false) (h2 : t2.contains '&' = false) :
    (url_to_filename sha256 (base ++ '?' :: 't' :: '=' :: t1)
        = url_to_filename sha256 (base ++ '?' :: 't' :: '=' :: t2) ∧
      url_to_filename sha256 (base ++ '?' :: 't' :: '=' :: t1)
        = url_to_filename sha256 base) ∧
    (∀ url, startswith url ("https://files.slack.com".toList) = false →
      url_to_filename sha256 url = lengthBound sha256 (urllib_quote url)) := by
  have hstrip : ∀ t : List Char, t.contains '&' = false →
      url_to_filename sha256 (base ++ '?' :: 't' :: '=' :: t)
        = lengthBound sha256 (urllib_quote base) := by
    intro t ht
    rw [url_to_filename, if_pos (startswith_append _ base _ hpre),
      stripQT_append_qt t ht base hbase]
  have hbase_eq : url_to_filename sha256 base = lengthBound sha256 (urllib_quote base) := by
    rw [url_to_filename, if_pos hpre, stripQT_eq_self base hbase]
  refine ⟨⟨?_, ?_⟩, ?_⟩
  · rw [hstrip t1 h1, hstrip t2 h2]
  · rw [hstrip t1 h1, hbase_eq]
  · intro url hurl
    have hne : ¬ (startswith url ("https://files.slack.com".toList) = true) := by
      simp only [hurl]
      exact Bool.false_ne_true
    rw [url_to_filename, if_neg hne]

theorem url_to_filename_strip_t_witness :
    (startswith ("https://files.slack.com/f.png".toList)
        ("https://files.slack.com".toList) = true) ∧
    url_to_filename (fun l => l) (("https://files.slack.com/f.png".toList)
        ++ '?' :: 't' :: '=' :: ('a' :: 'b' :: []))
      = url_to_filename (fun l => l) (("https://files.slack.com/f.png".toList)
        ++ '?' :: 't' :: '=' :: ('z' :: [])) :=
  ⟨by decide,
    (url_to_filename_strip_t (fun l => l) ("https://files.slack.com/f.png".toList)
      ('a' :: 'b' :: []) ('z' :: []) (by decide) (by decide) (by decide) (by decide)).1.1⟩

/-! ### C10: pending snapshot larger than the queue capacity -/

theorem loadPending_go_overflow :
    ∀ (pending : List (List Char × List Char)) (q : List (List Char × List Char)),
      q.length ≤ 5000 → 5000 < q.length + pending.length →
      pending.foldlM (fun q item => put_nowait 5000 q item) q = none := by
  intro pending
  induction pending with
  | nil =>
    intro q hq h
    simp at h
    omega
  | cons x xs ih =>
    intro q hq h
    rw [List.foldlM_cons, put_nowait]
    by_cases hlt : q.length < 5000
    · rw [if_pos hlt]
      have hlen : (q ++ [x]).length = q.length + 1 := by simp
      have := ih (q ++ [x]) (by omega) (by rw [hlen]; simp at h ⊢; omega)
      simpa using this
    · rw [if_neg hlt]
      rfl

theorem loadPending_go_ok :
    ∀ (pending : List (List Char × List Char)) (q : List (List Char × List Char)),
      q.length + pending.length ≤ 5000 →
      pending.foldlM (fun q item => put_nowait 5000 q item) q = some (q ++ pending) := by
  intro pending
  induction pending with
  | nil => intro q _; simp
  | cons x xs ih =>
    intro q h
    simp only [List.length_cons] at h
    rw [List.foldlM_cons, put_nowait, if_pos (by omega)]
    have hlen : (q ++ [x]).length = q.length + 1 := by simp
    have := ih (q ++ [x]) (by omega)
    simpa using this

/--
C10.  `Downloader.__init__` loads the persisted pending snapshot with
`put_nowait` onto the freshly created `Queue(maxsize=5000)`: when the
snapshot holds more than 5000 entries the 5001st `put_nowait` raises
`Queue.Full` instead of blocking, so construction fails (`none`) rather
than loading all pending targets; a snapshot of at most 5000 entries
loads completely, in order.
-/
theorem downloader_init_pending_overflow (pending : List (List Char × List Char))
    (h : 5000 < pending.length) :
    loadPending pending = none ∧
    ∀ p : List (List Char × List Char), p.length ≤ 5000 → loadPending p = some p := by
  constructor
  · exact loadPending_go_overflow pending [] (by simp) (by simpa using h)
  · intro p hp
    simpa using loadPending_go_ok p [] (by simpa using hp)

theorem downloader_init_pending_overflow_witness :
    loadPending (List.replicate 5001 ([], [])) = none :=
  (downloader_init_pending_overflow (List.replicate 5001 ([], []))
    (by simp only [List.length_replicate]; omega)).1

/-! ### C7 and C8: worker loop error handling -/

theorem rpartition_join (sep : Char) :
    ∀ l : List Char,
      (rpartition l sep).1 ++ (rpartition l sep).2.1 ++ (rpartition l sep).2.2 = l := by
  intro l
  induction l with
  | nil => rfl
  | cons c cs ih =>
    rw [rpartition]
    by_cases hj : ((rpartition cs sep).2.1).isEmpty = true
    · rw [if_pos hj]
      by_cases hc : c = sep
      · rw [if_pos hc, hc]
        rfl
      · rw [if_neg hc]
        rfl
    · rw [if_neg hj]
      simpa using ih

theorem meta_file_ne_target (target : List Char) :
    (rpartition target '/').1 ++ (rpartition target '/').2.1 ++ ("meta-".toList)
      ++ (rpartition target '/').2.2 ++ (".txt".toList) ≠ target := by
  intro h
  have hj := rpartition_join '/' target
  have hlen := congrArg List.length h
  have hlen2 := congrArg List.length hj
  have h5 : (("meta-".toList).length) = 5 := rfl
  have h4 : ((".txt".toList).length) = 4 := rfl
  simp only [List.length_append, h5, h4] at hlen hlen2
  omega

theorem fsRead_write_self (fs : FileSys) (p c : List Char) :
    fsRead (fsWrite fs p c) p = some c := by
  rw [fsRead, fsWrite, List.find?_cons_of_pos]
  · rfl
  · simp

theorem fsExists_write_other (fs : FileSys) (p c q : List Char) (h : p ≠ q) :
    fsExists (fsWrite fs p c) q = fsExists fs q := by
  rw [fsExists, fsWrite, List.find?_cons_of_neg]
  · rfl
  · simp [h]

/--
C7.  When `requests.get` raises a transport-level exception for a
target (that passed the existence check and acquired its lock marker),
the worker atomically writes a meta file whose first line is the
synthetic status `999` followed by the captured error, writes nothing
at the destination path (no partial content artifact: the destination
still does not exist), releases the lock marker, and continues to the
next queued item without raising (outcome `cont`, queue untouched).
-/
theorem downloader_transport_error_meta999 (fetch : List Char → Fetch) (st : DLState)
    (url target e : List Char)
    (hfetch : fetch url = Fetch.exc e)
    (hexists : fsExists st.files target = false)
    (hlock : st.locks.contains ((rpartition target '/').2.2) = false) :
    (downloaderIter fetch Fault.nofault st (some (url, target))).2 = Outcome.cont ∧
    fsRead (downloaderIter fetch Fault.nofault st (some (url, target))).1.files
        ((rpartition target '/').1 ++ (rpartition target '/').2.1 ++ ("meta-".toList)
          ++ (rpartition target '/').2.2 ++ (".txt".toList))
      = some (("999\nException: ".toList) ++ e) ∧
    (fsRead (downloaderIter fetch Fault.nofault st (some (url, target))).1.files
        ((rpartition target '/').1 ++ (rpartition target '/').2.1 ++ ("meta-".toList)
          ++ (rpartition target '/').2.2 ++ (".txt".toList))).map
        (fun c => c.takeWhile (fun ch => ch ≠ '\n'))
      = some ("999".toList) ∧
    fsExists (downloaderIter fetch Fault.nofault st (some (url, target))).1.files target
      = false ∧
    (downloaderIter fetch Fault.nofault st (some (url, target))).1.locks = st.locks ∧
    (downloaderIter fetch Fault.nofault st (some (url, target))).1.queue = st.queue := by
  have hred : downloaderIter fetch Fault.nofault st (some (url, target)) =
      ({ st with
          files := fsWrite st.files
            ((rpartition target '/').1 ++ (rpartition target '/').2.1 ++ ("meta-".toList)
              ++ (rpartition target '/').2.2 ++ (".txt".toList))
            (("999\nException: ".toList) ++ e)
          locks := (((rpartition target '/').2.2) :: st.locks).erase
            ((rpartition target '/').2.2) }, Outcome.cont) := by
    rw [downloaderIter]
    simp only [hexists, hlock, hfetch]
    rfl
  rw [hred]
  have hmeta : ((rpartition target '/').1 ++ (rpartition target '/').2.1 ++ ("meta-".toList)
      ++ (rpartition target '/').2.2 ++ (".txt".toList)) ≠ target :=
    meta_file_ne_target target
  refine ⟨rfl, ?_, ?_, ?_, ?_, rfl⟩
  · exact fsRead_write_self st.files _ _
  · rw [fsRead_write_self st.files _ _]
    rfl
  · rw [fsExists_write_other st.files _ _ _ hmeta]
    exact hexists
  · exact List.erase_cons_head _ _

theorem downloader_transport_error_meta999_witness :
    (downloaderIter (fun _ => Fetch.exc ('E' :: [])) Fault.nofault
        { files := [], locks := [], queue := [] } (some (('u' :: []), ('t' :: [])))).2
      = Outcome.cont ∧
    fsRead (downloaderIter (fun _ => Fetch.exc ('E' :: [])) Fault.nofault
        { files := [], locks := [], queue := [] } (some (('u' :: []), ('t' :: [])))).1.files
        ((rpartition ('t' :: []) '/').1 ++ (rpartition ('t' :: []) '/').2.1
          ++ ("meta-".toList) ++ (rpartition ('t' :: []) '/').2.2 ++ (".txt".toList))
      = some (("999\nException: ".toList) ++ ('E' :: [])) :=
  ⟨(downloader_transport_error_meta999 (fun _ => Fetch.exc ('E' :: []))
      { files := [], locks := [], queue := [] } ('u' :: []) ('t' :: []) ('E' :: [])
      rfl rfl rfl).1,
    (downloader_transport_error_meta999 (fun _ => Fetch.exc ('E' :: []))
      { files := [], locks := [], queue := [] } ('u' :: []) ('t' :: []) ('E' :: [])
      rfl rfl rfl).2.1⟩

/--
C8.  Whenever processing a real (non-sentinel) target makes the worker
die — an unexpected exception escaping the `try` body — the `except`
clause has pushed that exact target back onto the queue first, so no
queued target is silently lost on an unhandled fault.
-/
theorem downloader_unexpected_fault_requeues (fetch : List Char → Fetch) (fault : Fault)
    (st : DLState) (url target : List Char)
    (hdied : (downloaderIter fetch fault st (some (url, target))).2 = Outcome.died) :
    (downloaderIter fetch fault st (some (url, target))).1.queue
      = st.queue ++ [(url, target)] := by
  rcases fault with _ | _ | _
  · exfalso
    by_cases h1 : fsExists st.files target
    · simp [downloaderIter, h1] at hdied
    · by_cases h2 : ((rpartition target '/').2.2) ∈ st.locks
      · simp [downloaderIter, h1, h2] at hdied
      · rcases hfu : fetch url with ⟨s, hs, b⟩ | e
        · simp [downloaderIter, h1, h2, hfu] at hdied
        · simp [downloaderIter, h1, h2, hfu] at hdied
  · simp [downloaderIter]
  · by_cases h1 : fsExists st.files target
    · exfalso
      simp [downloaderIter, h1] at hdied
    · by_cases h2 : ((rpartition target '/').2.2) ∈ st.locks
      · exfalso
        simp [downloaderIter, h1, h2] at hdied
      · simp [downloaderIter, h1, h2]

theorem downloader_unexpected_fault_requeues_witness :
    (downloaderIter (fun _ => Fetch.exc []) Fault.beforeLock
        { files := [], locks := [], queue := [] } (some (('u' :: []), ('t' :: [])))).1.queue
      = [] ++ [(('u' :: []), ('t' :: []))] :=
  downloader_unexpected_fault_requeues (fun _ => Fetch.exc []) Fault.beforeLock
    { files := [], locks := [], queue := [] } ('u' :: []) ('t' :: []) rfl

/-! ### C6: duplicate submission of the same URL -/

theorem raceInv_init : raceInv raceInit = true := by decide

theorem raceInv_step (s : RaceState) (w : Bool) (h : raceInv s = true) :
    raceInv (raceStep w s) = true := by
  obtain ⟨pcA, pcB, lock, content, meta, dlA, dlB⟩ := s
  revert h
  fin_cases pcA <;> fin_cases pcB <;>
    cases lock <;> cases content <;> cases meta <;> cases dlA <;> cases dlB <;> cases w <;>
    decide

theorem raceInv_run (sched : List Bool) : raceInv (raceRun sched) = true := by
  suffices h : ∀ (l : List Bool) (s : RaceState), raceInv s = true →
      raceInv (l.foldl (fun s w => raceStep w s) s) = true by
    exact h sched raceInit raceInv_init
  intro l
  induction l with
  | nil => intro s hs; exact hs
  | cons w ws ih => intro s hs; exact ih (raceStep w s) (raceInv_step s w hs)

theorem raceInv_done (s : RaceState) (h : raceInv s = true) (hA : s.pcA.val = 5)
    (hB : s.pcB.val = 5) : s.content = true ∧ s.meta = true := by
  obtain ⟨pcA, pcB, lock, content, meta, dlA, dlB⟩ := s
  revert h hA hB
  fin_cases pcA <;> fin_cases pcB <;>
    cases lock <;> cases content <;> cases meta <;> cases dlA <;> cases dlB <;>
    decide

/--
C6 (amended).  The destination path is a pure deterministic function of
the URL (`url_to_filename` is a function, so the two copies of a
twice-submitted URL share one target path and one meta path), and under
every interleaving of the two workers that pop the two copies, once both
workers are done there is exactly one content file and exactly one meta
file on disk: the single target path holds content and the single meta
path holds metadata, each written by at least one worker and shadowing
any duplicate write of the same path.  (The mechanism claimed by the
spec — that the duplicate is always dropped by the existence check or
the lock-marker test-and-set — does not hold in every interleaving; see
the counterexample, where both copies are fully downloaded.)
-/
theorem downloader_duplicate_single_files (sched : List Bool)
    (hA : (raceRun sched).pcA.val = 5) (hB : (raceRun sched).pcB.val = 5) :
    (raceRun sched).content = true ∧ (raceRun sched).meta = true :=
  raceInv_done (raceRun sched) (raceInv_run sched) hA hB

theorem downloader_duplicate_single_files_witness :
    (raceRun (true :: true :: true :: true :: true :: false :: [])).pcA.val = 5 ∧
    (raceRun (true :: true :: true :: true :: true :: false :: [])).content = true ∧
    (raceRun (true :: true :: true :: true :: true :: false :: [])).meta = true :=
  ⟨by decide,
    (downloader_duplicate_single_files (true :: true :: true :: true :: true :: false :: [])
      (by decide) (by decide)).1,
    (downloader_duplicate_single_files (true :: true :: true :: true :: true :: false :: [])
      (by decide) (by decide)).2⟩

/--
C6 (counterexample).  The claim states that the duplicate of a
twice-submitted URL is dropped by the destination-existence check or the
lock-marker test-and-set.  In the schedule below worker B passes the
existence check while the target does not exist yet, worker A then
downloads its copy completely and releases the lock marker, and worker B
subsequently acquires the lock and downloads the same URL again: both
workers perform the full fetch (`dlA` and `dlB` both end `true`), so the
duplicate was dropped by neither check.  (The on-disk result is still a
single content file and a single meta file, since both writes target the
same two paths.)
-/
theorem downloader_duplicate_not_dropped_cex :
    (raceRun (false :: true :: true :: true :: true :: true
        :: false :: false :: false :: false :: [])).dlA = true ∧
    (raceRun (false :: true :: true :: true :: true :: true
        :: false :: false :: false :: false :: [])).dlB = true ∧
    (raceRun (false :: true :: true :: true :: true :: true
        :: false :: false :: false :: false :: [])).pcA.val = 5 ∧
    (raceRun (false :: true :: true :: true :: true :: true
        :: false :: false :: false :: false :: [])).pcB.val = 5 := by
  decide

/-! ### Sync engine: helper lemmas -/

theorem groupRuns_join (key : Msg → Nat) :
    ∀ l : List Msg, joinRuns (groupRuns key l) = l := by
  intro l
  induction l with
  | nil => rfl
  | cons x xs ih =>
    rw [groupRuns]
    cases hg : groupRuns key xs with
    | nil =>
      rw [hg] at ih
      simp [joinRuns] at ih
      simp [joinRuns, ← ih]
    | cons p rest =>
      rcases p with ⟨k, run⟩
      rw [hg] at ih
      change joinRuns (if key x = k then (k, x :: run) :: rest
        else (key x, [x]) :: (k, run) :: rest) = x :: xs
      by_cases hk : key x = k
      · rw [if_pos hk]
        simp [joinRuns] at ih ⊢
        exact ih
      · rw [if_neg hk]
        simp [joinRuns] at ih ⊢
        exact ih

theorem groupRuns_run_ne_nil (key : Msg → Nat) :
    ∀ (l : List Msg) (p : Nat × List Msg), p ∈ groupRuns key l → p.2 ≠ [] := by
  intro l
  induction l with
  | nil => intro p hp; simp [groupRuns] at hp
  | cons x xs ih =>
    intro p hp
    rw [groupRuns] at hp
    cases hg : groupRuns key xs with
    | nil =>
      rw [hg] at hp
      simp at hp
      simp [hp]
    | cons q rest =>
      rcases q with ⟨k, run⟩
      rw [hg] at hp
      change p ∈ (if key x = k then (k, x :: run) :: rest
        else (key x, [x]) :: (k, run) :: rest) at hp
      by_cases hk : key x = k
      · rw [if_pos hk] at hp
        rcases List.mem_cons.mp hp with h | h
        · simp [h]
        · exact ih p (hg ▸ List.mem_cons_of_mem (k, run) h)
      · rw [if_neg hk] at hp
        rcases List.mem_cons.mp hp with h | h
        · simp [h]
        · exact ih p (hg ▸ h)

theorem groupRuns_key_eq (key : Msg → Nat) :
    ∀ (l : List Msg) (p : Nat × List Msg), p ∈ groupRuns key l →
      ∀ m ∈ p.2, key m = p.1 := by
  intro l
  induction l with
  | nil => intro p hp; simp [groupRuns] at hp
  | cons x xs ih =>
    intro p hp m hm
    rw [groupRuns] at hp
    cases hg : groupRuns key xs with
    | nil =>
      rw [hg] at hp
      simp at hp
      rw [hp] at hm
      simp at hm
      simp [hp, hm]
    | cons q rest =>
      rcases q with ⟨k, run⟩
      rw [hg] at hp
      change p ∈ (if key x = k then (k, x :: run) :: rest
        else (key x, [x]) :: (k, run) :: rest) at hp
      by_cases hk : key x = k
      · rw [if_pos hk] at hp
        rcases List.mem_cons.mp hp with h | h
        · rw [h] at hm
          simp at hm
          rcases hm with hm | hm
          · simp [h, hm, hk]
          · have := ih (k, run) (hg ▸ List.mem_cons_self (k, run) rest) m hm
            simp [h]
            exact this
        · exact ih p (hg ▸ List.mem_cons_of_mem (k, run) h) m hm
      · rw [if_neg hk] at hp
        rcases List.mem_cons.mp hp with h | h
        · rw [h] at hm
          simp at hm
          simp [h, hm]
        · exact ih p (hg ▸ h) m hm

theorem getLastD_mem : ∀ (l : List Msg) (d : Msg), l ≠ [] → l.getLastD d ∈ l := by
  intro l
  induction l with
  | nil => intro d h; exact absurd rfl h
  | cons x xs ih =>
    intro d _
    rw [List.getLastD_cons]
    cases hx : xs with
    | nil => simp
    | cons y ys =>
      have := ih x (by simp [hx])
      rw [hx] at this
      exact List.mem_cons_of_mem x (hx ▸ this)

theorem sorted_le_getLastD :
    ∀ (l : List Msg), l.Pairwise msgLe → ∀ (d m : Msg), m ∈ l → m.ts ≤ (l.getLastD d).ts := by
  intro l
  induction l with
  | nil => intro _ d m hm; simp at hm
  | cons x xs ih =>
    intro h d m hm
    rw [List.pairwise_cons] at h
    rw [List.getLastD_cons]
    rcases List.mem_cons.mp hm with hmx | hmxs
    · subst hmx
      cases hxs : xs with
      | nil => simp
      | cons y ys =>
        have hmem : (y :: ys).getLastD m ∈ (y :: ys) :=
          getLastD_mem (y :: ys) m (by simp)
        have h2 := h.1 ((y :: ys).getLastD m) (hxs ▸ hmem)
        exact h2
    · exact ih h.2 x m hmxs

theorem foldl_max_acc_le :
    ∀ (l : List Msg) (a : Nat), a ≤ l.foldl (fun acc x => max acc x.ts) a := by
  intro l
  induction l with
  | nil => intro a; simp
  | cons x xs ih =>
    intro a
    rw [List.foldl_cons]
    exact le_trans (le_max_left _ _) (ih _)

theorem le_foldl_max (l : List Msg) :
    ∀ (a : Nat) (m : Msg), m ∈ l → m.ts ≤ l.foldl (fun acc x => max acc x.ts) a := by
  induction l with
  | nil => intro a m hm; simp at hm
  | cons x xs ih =>
    intro a m hm
    rw [List.foldl_cons]
    rcases List.mem_cons.mp hm with hmx | hmxs
    · subst hmx
      exact le_trans (le_max_right _ _) (foldl_max_acc_le xs _)
    · exact ih _ m hmxs

theorem foldl_max_le (c : Nat) :
    ∀ (l : List Msg) (a : Nat), a ≤ c → (∀ m ∈ l, m.ts ≤ c) →
      l.foldl (fun acc x => max acc x.ts) a ≤ c := by
  intro l
  induction l with
  | nil => intro a ha _; simpa using ha
  | cons x xs ih =>
    intro a ha hb
    rw [List.foldl_cons]
    exact ih _ (max_le ha (hb x (List.mem_cons_self x xs)))
      (fun m hm => hb m (List.mem_cons_of_mem x hm))

theorem updateDay_apply (a : Nat → List Msg) (day : Nat) (v : List Msg) (d : Nat) :
    updateDay a day v d = if d = day then v else a d := rfl

theorem processRun_eq (sha : List Char → List Char) (st : SyncState) (day : Nat)
    (run : List Msg) :
    processRun sha st day run =
      { archive := updateDay st.archive day (st.archive day ++ run)
        latest_ts := if (run.getLastD default).ts > st.latest_ts
          then (run.getLastD default).ts else st.latest_ts
        dl := runEnqueue sha st.dl run } := rfl

theorem sorted_mergeSort_page (msgs : List Msg) :
    (msgs.mergeSort tsLe).Pairwise msgLe := by
  have h := @List.sorted_mergeSort Msg tsLe
    (fun a b c hab hbc => by
      unfold tsLe at hab hbc ⊢
      exact decide_eq_true (le_trans (of_decide_eq_true hab) (of_decide_eq_true hbc)))
    (fun a b => by
      unfold tsLe
      rcases Nat.le_total a.ts b.ts with h | h <;> simp [h])
    msgs
  exact h.imp (fun hab => by
    unfold tsLe at hab
    show _ ≤ _
    exact of_decide_eq_true hab)

theorem foldRuns_spec (sha : List Char → List Char) :
    ∀ (runs : List (Nat × List Msg)) (st : SyncState),
      SyncInv st →
      (∀ p ∈ runs, p.2 ≠ []) →
      (∀ p ∈ runs, ∀ m ∈ p.2, dayOf m.ts = p.1) →
      (joinRuns runs).Pairwise msgLe →
      (∀ m ∈ joinRuns runs, st.latest_ts ≤ m.ts) →
      SyncInv (foldRuns sha st runs) ∧
      st.latest_ts ≤ (foldRuns sha st runs).latest_ts ∧
      ∀ d, ∃ new, (foldRuns sha st runs).archive d = st.archive d ++ new ∧
        ∀ m ∈ new, st.latest_ts ≤ m.ts := by
  intro runs
  induction runs with
  | nil =>
    intro st hinv _ _ _ _
    exact ⟨hinv, le_refl _, fun d => ⟨[], by simp [foldRuns], by simp⟩⟩
  | cons p rest ih =>
    rcases p with ⟨day, run⟩
    intro st hinv hne hkey hsort hbound
    have hjoin : joinRuns ((day, run) :: rest) = run ++ joinRuns rest := rfl
    rw [hjoin] at hsort hbound
    rw [List.pairwise_append] at hsort
    obtain ⟨hsr, hsrest, hcross⟩ := hsort
    have hrun_ne : run ≠ [] := hne (day, run) (List.mem_cons_self _ _)
    have hrun_day : ∀ m ∈ run, dayOf m.ts = day :=
      fun m hm => hkey (day, run) (List.mem_cons_self _ _) m hm
    have hlast_mem : run.getLastD default ∈ run := getLastD_mem run default hrun_ne
    have hrun_le_last : ∀ m ∈ run, m.ts ≤ (run.getLastD default).ts :=
      fun m hm => sorted_le_getLastD run hsr default m hm
    have hbound_run : ∀ m ∈ run, st.latest_ts ≤ m.ts :=
      fun m hm => hbound m (List.mem_append_left _ hm)
    have hfold : foldRuns sha st ((day, run) :: rest)
        = foldRuns sha (processRun sha st day run) rest := rfl
    have harch₁ : (processRun sha st day run).archive
        = updateDay st.archive day (st.archive day ++ run) := by
      rw [processRun_eq]
    have hlat₁ : (processRun sha st day run).latest_ts
        = if (run.getLastD default).ts > st.latest_ts
          then (run.getLastD default).ts else st.latest_ts := by
      rw [processRun_eq]
    have hmono₁ : st.latest_ts ≤ (processRun sha st day run).latest_ts := by
      rw [hlat₁]; split <;> omega
    have hlast_le₁ : (run.getLastD default).ts ≤ (processRun sha st day run).latest_ts := by
      rw [hlat₁]; split <;> omega
    have hinv₁ : SyncInv (processRun sha st day run) := by
      constructor
      · intro d
        rw [harch₁, updateDay_apply]
        by_cases hd : d = day
        · rw [if_pos hd]
          subst hd
          constructor
          · rw [List.pairwise_append]
            exact ⟨(hinv.1 d).1, hsr, fun a ha b hb =>
              le_trans (hinv.2 d a ha) (hbound_run b hb)⟩
          · intro m hm
            rcases List.mem_append.mp hm with h | h
            · exact (hinv.1 d).2 m h
            · exact hrun_day m h
        · rw [if_neg hd]
          exact hinv.1 d
      · intro d m hm
        rw [harch₁, updateDay_apply] at hm
        by_cases hd : d = day
        · rw [if_pos hd] at hm
          rcases List.mem_append.mp hm with h | h
          · exact le_trans (hinv.2 day m h) hmono₁
          · exact le_trans (hrun_le_last m h) hlast_le₁
        · rw [if_neg hd] at hm
          exact le_trans (hinv.2 d m hm) hmono₁
    have hbound_rest : ∀ m ∈ joinRuns rest,
        (processRun sha st day run).latest_ts ≤ m.ts := by
      intro m hm
      rw [hlat₁]
      by_cases hgt : (run.getLastD default).ts > st.latest_ts
      · rw [if_pos hgt]
        exact hcross (run.getLastD default) hlast_mem m hm
      · rw [if_neg hgt]
        exact hbound m (List.mem_append_right _ hm)
    obtain ⟨hinv', hmono', happ'⟩ := ih (processRun sha st day run) hinv₁
      (fun p hp => hne p (List.mem_cons_of_mem _ hp))
      (fun p hp => hkey p (List.mem_cons_of_mem _ hp))
      hsrest hbound_rest
    refine ⟨by rw [hfold]; exact hinv', ?_, ?_⟩
    · rw [hfold]
      exact le_trans hmono₁ hmono'
    · intro d
      obtain ⟨new₁, hnew₁, hb₁⟩ := happ' d
      by_cases hd : d = day
      · subst hd
        refine ⟨run ++ new₁, ?_, ?_⟩
        · rw [hfold, hnew₁, harch₁, updateDay_apply, if_pos rfl, List.append_assoc]
        · intro m hm
          rcases List.mem_append.mp hm with h | h
          · exact hbound_run m h
          · exact le_trans hmono₁ (hb₁ m h)
      · refine ⟨new₁, ?_, fun m hm => le_trans hmono₁ (hb₁ m hm)⟩
        rw [hfold, hnew₁, harch₁, updateDay_apply, if_neg hd]

theorem processPage_spec (sha : List Char → List Char) (st : SyncState) (msgs : List Msg)
    (hinv : SyncInv st) (hbound : ∀ m ∈ msgs, st.latest_ts ≤ m.ts) :
    SyncInv (processPage sha st msgs) ∧
    st.latest_ts ≤ (processPage sha st msgs).latest_ts ∧
    ∀ d, ∃ new, (processPage sha st msgs).archive d = st.archive d ++ new ∧
      ∀ m ∈ new, st.latest_ts ≤ m.ts := by
  have hjoin := groupRuns_join (fun m => dayOf m.ts) (msgs.mergeSort tsLe)
  refine foldRuns_spec sha (groupRuns (fun m => dayOf m.ts) (msgs.mergeSort tsLe)) st hinv
    (groupRuns_run_ne_nil _ _) (groupRuns_key_eq _ _) ?_ ?_
  · rw [hjoin]
    exact sorted_mergeSort_page msgs
  · intro m hm
    rw [hjoin] at hm
    exact hbound m (List.mem_mergeSort.mp hm)

theorem latestDay_cons (x : Nat) (xs : List Nat) :
    latestDay (x :: xs) = max x (latestDay xs) := rfl

theorem mem_le_latestDay : ∀ (days : List Nat) (d : Nat), d ∈ days → d ≤ latestDay days := by
  intro days
  induction days with
  | nil => intro d hd; simp at hd
  | cons x xs ih =>
    intro d hd
    rw [latestDay_cons]
    rcases List.mem_cons.mp hd with h | h
    · subst h
      exact le_max_left _ _
    · exact le_trans (ih d h) (le_max_right _ _)

theorem latestDay_mem : ∀ (days : List Nat), days ≠ [] → latestDay days ∈ days := by
  intro days
  induction days with
  | nil => intro h; exact absurd rfl h
  | cons x xs ih =>
    intro _
    rw [latestDay_cons]
    rcases Nat.le_total (latestDay xs) x with h | h
    · rw [max_eq_left h]
      exact List.mem_cons_self _ _
    · rw [max_eq_right h]
      by_cases hxs : xs = []
      · subst hxs
        have h0 : latestDay ([] : List Nat) = 0 := rfl
        rw [h0] at h ⊢
        have hx0 : x = 0 := Nat.le_zero.mp h
        subst hx0
        exact List.mem_cons_self _ _
      · exact List.mem_cons_of_mem x (ih hxs)

theorem initial_latest_ts_spec (archive : Nat → List Msg) (days : List Nat)
    (hday : dayInv archive)
    (hdays : ∀ d, archive d ≠ [] ↔ d ∈ days) :
    ∀ d, ∀ m ∈ archive d, m.ts ≤ initial_latest_ts archive days := by
  intro d m hm
  have hne : archive d ≠ [] := List.ne_nil_of_mem hm
  have hd : d ∈ days := (hdays d).mp hne
  have hdmax : d ≤ latestDay days := mem_le_latestDay days d hd
  have hmaxmem : latestDay days ∈ days := latestDay_mem days (List.ne_nil_of_mem hd)
  have hmaxne : archive (latestDay days) ≠ [] := (hdays _).mpr hmaxmem
  cases hlast : (archive (latestDay days)).getLast? with
  | none => exact absurd (List.getLast?_eq_none_iff.mp hlast) hmaxne
  | some last =>
    have hlastmem : last ∈ archive (latestDay days) := List.mem_of_getLast?_eq_some hlast
    rw [initial_latest_ts, hlast]
    show m.ts ≤ last.ts
    by_cases hdd : d = latestDay days
    · subst hdd
      have hgd : (archive (latestDay days)).getLastD default = last := by
        rw [List.getLastD_eq_getLast?, hlast]
        rfl
      have hle := sorted_le_getLastD (archive (latestDay days)) (hday _).1 default m hm
      rw [hgd] at hle
      exact hle
    · have hlt : d < latestDay days := lt_of_le_of_ne hdmax hdd
      have h1 : dayOf m.ts = d := (hday d).2 m hm
      have h2 : dayOf last.ts = latestDay days := (hday _).2 last hlastmem
      by_contra hcon
      push_neg at hcon
      have hmono : dayOf last.ts ≤ dayOf m.ts :=
        Nat.div_le_div_right (le_of_lt hcon)
      omega

theorem refreshLoop_succ (sha : List Char → List Char) (remote : Nat → Page) (fuel : Nat)
    (st : SyncState) :
    refreshLoop sha remote (fuel + 1) st =
      if (remote st.latest_ts).has_more then
        refreshLoop sha remote fuel (processPage sha st (remote st.latest_ts).msgs)
      else processPage sha st (remote st.latest_ts).msgs := rfl

theorem refreshLoop_spec (sha : List Char → List Char) (remote : Nat → Page)
    (hremote : ∀ ts, ∀ m ∈ (remote ts).msgs, ts ≤ m.ts) :
    ∀ (fuel : Nat) (st : SyncState), SyncInv st →
      SyncInv (refreshLoop sha remote fuel st) ∧
      st.latest_ts ≤ (refreshLoop sha remote fuel st).latest_ts ∧
      ∀ d, ∃ new, (refreshLoop sha remote fuel st).archive d = st.archive d ++ new ∧
        ∀ m ∈ new, st.latest_ts ≤ m.ts := by
  intro fuel
  induction fuel with
  | zero =>
    intro st hinv
    exact ⟨hinv, le_refl _, fun d => ⟨[], by simp [refreshLoop], by simp⟩⟩
  | succ fuel ih =>
    intro st hinv
    obtain ⟨hinv₁, hmono₁, happ₁⟩ := processPage_spec sha st (remote st.latest_ts).msgs hinv
      (hremote st.latest_ts)
    rw [refreshLoop_succ]
    by_cases hm : (remote st.latest_ts).has_more
    · rw [if_pos hm]
      obtain ⟨hinv₂, hmono₂, happ₂⟩ := ih (processPage sha st (remote st.latest_ts).msgs) hinv₁
      refine ⟨hinv₂, le_trans hmono₁ hmono₂, ?_⟩
      intro d
      obtain ⟨new₁, hnew₁, hb₁⟩ := happ₁ d
      obtain ⟨new₂, hnew₂, hb₂⟩ := happ₂ d
      refine ⟨new₁ ++ new₂, by rw [hnew₂, hnew₁, List.append_assoc], ?_⟩
      intro m hmem
      rcases List.mem_append.mp hmem with h | h
      · exact hb₁ m h
      · exact le_trans hmono₁ (hb₂ m h)
    · rw [if_neg hm]
      exact ⟨hinv₁, hmono₁, happ₁⟩

/--
C2.  For every channel, starting from an on-disk archive satisfying the
day-file invariant (each day file sorted by timestamp, each record in
its own day's file) with the resume cursor derived from the last record
of the greatest day file (lines 327-331), and for every remote history
source honouring the `oldest` parameter (every returned record has
timestamp at least the requested cursor), a whole run of the pagination
loop of `Channel._refresh_messages`:

* keeps every day file sorted by timestamp (`SyncInv` contains
  `dayInv`);
* never removes a record: every day file after the run is the day file
  before the run with a suffix appended;
* only appends records whose timestamp is at least the timestamp of the
  last record previously persisted for the channel (the derived
  cursor).
-/
theorem refresh_messages_sorted_append_only (sha : List Char → List Char)
    (remote : Nat → Page) (fuel : Nat) (archive : Nat → List Msg) (days : List Nat)
    (dl : DLState)
    (hday : dayInv archive)
    (hdays : ∀ d, archive d ≠ [] ↔ d ∈ days)
    (hremote : ∀ ts, ∀ m ∈ (remote ts).msgs, ts ≤ m.ts) :
    (∀ d, ((refreshLoop sha remote fuel
        (⟨archive, initial_latest_ts archive days, dl⟩ : SyncState)).archive d).Pairwise
        msgLe) ∧
    ∀ d, ∃ new,
      (refreshLoop sha remote fuel
        (⟨archive, initial_latest_ts archive days, dl⟩ : SyncState)).archive d
        = archive d ++ new ∧
      ∀ m ∈ new, initial_latest_ts archive days ≤ m.ts := by
  have hinv0 : SyncInv (⟨archive, initial_latest_ts archive days, dl⟩ : SyncState) :=
    ⟨hday, fun d m hm => initial_latest_ts_spec archive days hday hdays d m hm⟩
  obtain ⟨h1, _, h3⟩ := refreshLoop_spec sha remote hremote fuel _ hinv0
  exact ⟨fun d => (h1.1 d).1, h3⟩

theorem refresh_messages_sorted_append_only_witness :
    (∀ d, ((refreshLoop (fun l => l) (fun _ => { msgs := [], has_more := false }) 1
        (⟨fun _ => [], initial_latest_ts (fun _ => []) [],
          ⟨[], [], []⟩⟩ : SyncState)).archive d).Pairwise msgLe) ∧
    ∀ d, ∃ new,
      (refreshLoop (fun l => l) (fun _ => { msgs := [], has_more := false }) 1
        (⟨fun _ => [], initial_latest_ts (fun _ => []) [],
          ⟨[], [], []⟩⟩ : SyncState)).archive d
        = (fun _ => ([] : List Msg)) d ++ new ∧
      ∀ m ∈ new, initial_latest_ts (fun _ => []) [] ≤ m.ts :=
  refresh_messages_sorted_append_only (fun l => l)
    (fun _ => { msgs := [], has_more := false }) 1 (fun _ => []) []
    ⟨[], [], []⟩
    (fun _ => ⟨List.Pairwise.nil, fun m hm => absurd hm (List.not_mem_nil m)⟩)
    (fun d => ⟨fun h => absurd rfl h, fun h => absurd h (List.not_mem_nil d)⟩)
    (fun _ m hm => absurd hm (List.not_mem_nil m))

/--
C4.  When the remote history is unchanged — the fetch at the current
cursor returns no records and reports no further pages — a whole run of
the pagination loop of `Channel._refresh_messages` returns the state
unchanged: no day file is rewritten (in fact nothing in the state
changes), so every on-disk day file is byte-identical to its content
after the previous run.
-/
theorem refresh_unchanged_remote_idempotent (sha : List Char → List Char)
    (remote : Nat → Page) (fuel : Nat) (st : SyncState)
    (h : remote st.latest_ts = { msgs := [], has_more := false }) :
    refreshLoop sha remote (fuel + 1) st = st ∧
    ∀ d, (refreshLoop sha remote (fuel + 1) st).archive d = st.archive d := by
  have heq : refreshLoop sha remote (fuel + 1) st = st := by
    rw [refreshLoop_succ, h]
    simp [processPage, foldRuns, groupRuns]
  exact ⟨heq, fun d => by rw [heq]⟩

theorem refresh_unchanged_remote_idempotent_witness :
    refreshLoop (fun l => l) (fun _ => { msgs := [], has_more := false }) 1
        (⟨fun _ => [], 0, ⟨[], [], []⟩⟩ : SyncState)
      = (⟨fun _ => [], 0, ⟨[], [], []⟩⟩ : SyncState) :=
  (refresh_unchanged_remote_idempotent (fun l => l)
    (fun _ => { msgs := [], has_more := false }) 0
    (⟨fun _ => [], 0, ⟨[], [], []⟩⟩ : SyncState) rfl).1

/-! ### C5: resume cursor advancement -/

theorem maxTs_eq_getLastD (run : List Msg) (hs : run.Pairwise msgLe) (hne : run ≠ []) :
    maxTs run = (run.getLastD default).ts := by
  unfold maxTs
  exact le_antisymm
    (foldl_max_le _ run 0 (Nat.zero_le _)
      (fun m hm => sorted_le_getLastD run hs default m hm))
    (le_foldl_max run 0 _ (getLastD_mem run default hne))

theorem foldRuns_latest (sha : List Char → List Char) :
    ∀ (runs : List (Nat × List Msg)) (st : SyncState),
      (∀ p ∈ runs, p.2 ≠ []) →
      (joinRuns runs).Pairwise msgLe →
      st.latest_ts ≤ (foldRuns sha st runs).latest_ts ∧
      (∀ m ∈ joinRuns runs, m.ts ≤ (foldRuns sha st runs).latest_ts) ∧
      ((foldRuns sha st runs).latest_ts = st.latest_ts ∨
        ∃ m, m ∈ joinRuns runs ∧ (foldRuns sha st runs).latest_ts = m.ts) := by
  intro runs
  induction runs with
  | nil =>
    intro st _ _
    exact ⟨le_refl _, fun m hm => by simp [joinRuns] at hm, Or.inl rfl⟩
  | cons p rest ih =>
    rcases p with ⟨day, run⟩
    intro st hne hsort
    have hjoin : joinRuns ((day, run) :: rest) = run ++ joinRuns rest := rfl
    rw [hjoin] at hsort ⊢
    rw [List.pairwise_append] at hsort
    obtain ⟨hsr, hsrest, hcross⟩ := hsort
    have hrun_ne : run ≠ [] := hne _ (List.mem_cons_self _ _)
    have hlast_mem := getLastD_mem run default hrun_ne
    have hfold : foldRuns sha st ((day, run) :: rest)
        = foldRuns sha (processRun sha st day run) rest := rfl
    rw [hfold]
    have hlat₁ : (processRun sha st day run).latest_ts
        = if (run.getLastD default).ts > st.latest_ts
          then (run.getLastD default).ts else st.latest_ts := by
      rw [processRun_eq]
    obtain ⟨ih1, ih2, ih3⟩ := ih (processRun sha st day run)
      (fun p hp => hne p (List.mem_cons_of_mem _ hp)) hsrest
    have hmono₁ : st.latest_ts ≤ (processRun sha st day run).latest_ts := by
      rw [hlat₁]; split <;> omega
    have hlast₁ : (run.getLastD default).ts ≤ (processRun sha st day run).latest_ts := by
      rw [hlat₁]; split <;> omega
    refine ⟨le_trans hmono₁ ih1, ?_, ?_⟩
    · intro m hm
      rcases List.mem_append.mp hm with h | h
      · exact le_trans (sorted_le_getLastD run hsr default m h) (le_trans hlast₁ ih1)
      · exact ih2 m h
    · rcases ih3 with h | ⟨m, hm, hms⟩
      · rw [h, hlat₁]
        by_cases hgt : (run.getLastD default).ts > st.latest_ts
        · right
          exact ⟨run.getLastD default, List.mem_append_left _ hlast_mem, by rw [if_pos hgt]⟩
        · left
          rw [if_neg hgt]
      · right
        exact ⟨m, List.mem_append_right _ hm, hms⟩

/--
C5.  Resume cursor advancement in the pagination loop
(lines 361-362):

* after processing a same-day run (which the loop obtains sorted, from
  the sorted page), the cursor is set to the run's last — hence
  maximum — timestamp exactly when that maximum exceeds the current
  cursor, and is left unchanged otherwise;
* over a whole page, even when the remote returns records out of
  timestamp order, the cursor never decreases, ends at least as large
  as every timestamp seen in the page, and ends either unchanged or
  equal to one of the page's timestamps — together: it ends at
  `max (old cursor) (maximum timestamp seen)`.
-/
theorem refresh_cursor_monotone_max (sha : List Char → List Char) (st : SyncState) :
    (∀ (day : Nat) (run : List Msg), run.Pairwise msgLe → run ≠ [] →
      (processRun sha st day run).latest_ts
        = if maxTs run > st.latest_ts then maxTs run else st.latest_ts) ∧
    (∀ msgs : List Msg, st.latest_ts ≤ (processPage sha st msgs).latest_ts) ∧
    (∀ (msgs : List Msg) (m : Msg), m ∈ msgs →
      m.ts ≤ (processPage sha st msgs).latest_ts) ∧
    (∀ msgs : List Msg, (processPage sha st msgs).latest_ts = st.latest_ts ∨
      ∃ m, m ∈ msgs ∧ (processPage sha st msgs).latest_ts = m.ts) := by
  have hpage : ∀ msgs : List Msg,
      st.latest_ts ≤ (processPage sha st msgs).latest_ts ∧
      (∀ m ∈ msgs, m.ts ≤ (processPage sha st msgs).latest_ts) ∧
      ((processPage sha st msgs).latest_ts = st.latest_ts ∨
        ∃ m, m ∈ msgs ∧ (processPage sha st msgs).latest_ts = m.ts) := by
    intro msgs
    have hjoin := groupRuns_join (fun m => dayOf m.ts) (msgs.mergeSort tsLe)
    obtain ⟨h1, h2, h3⟩ := foldRuns_latest sha
      (groupRuns (fun m => dayOf m.ts) (msgs.mergeSort tsLe)) st
      (groupRuns_run_ne_nil _ _)
      (by rw [hjoin]; exact sorted_mergeSort_page msgs)
    refine ⟨h1, ?_, ?_⟩
    · intro m hm
      exact h2 m (by rw [hjoin]; exact List.mem_mergeSort.mpr hm)
    · rcases h3 with h | ⟨m, hm, hms⟩
      · exact Or.inl h
      · exact Or.inr ⟨m, List.mem_mergeSort.mp (by rw [← hjoin]; exact hm), hms⟩
  refine ⟨?_, fun msgs => (hpage msgs).1, fun msgs m hm => (hpage msgs).2.1 m hm,
    fun msgs => (hpage msgs).2.2⟩
  intro day run hs hne
  rw [processRun_eq, maxTs_eq_getLastD run hs hne]

theorem refresh_cursor_monotone_max_witness :
    (processRun (fun l => l) (⟨fun _ => [], 7, ⟨[], [], []⟩⟩ : SyncState) 0
        ({ ts := 5, payload := [], refs := [] } :: [])).latest_ts
      = if maxTs ({ ts := 5, payload := [], refs := [] } :: []) > 7
        then maxTs ({ ts := 5, payload := [], refs := [] } :: []) else 7 :=
  (refresh_cursor_monotone_max (fun l => l)
    (⟨fun _ => [], 7, ⟨[], [], []⟩⟩ : SyncState)).1 0
    ({ ts := 5, payload := [], refs := [] } :: [])
    (List.pairwise_singleton _ _) (by simp)

/-! ### C3: ordering of reference enqueueing and the day-file write -/

/--
C3 (amended).  Within the processing of one same-day run in
`Channel._refresh_messages` (lines 346-362), the file/attachment
references of the run are submitted to the Downloader queue
immediately *before* the merged day file is atomically written
(lines 356-358 run before lines 359-360): in every intermediate state
of the run in which the day file already contains the merged records,
the references have already been enqueued.  The converse claimed by
the spec is false: there is a reachable state in which a reference is
enqueued while its owning record is not yet on disk (see the
counterexample), so a crash in that window loses the not-yet-written
message record while keeping the queued file reference — not the other
way around.
-/
theorem refresh_enqueue_precedes_day_write (sha : List Char → List Char) (st : SyncState)
    (day : Nat) (run : List Msg) :
    ∀ s ∈ runStates sha st day run,
      s.archive day ≠ st.archive day → s.dl = runEnqueue sha st.dl run := by
  intro s hs hne
  rcases List.mem_cons.mp hs with h | hs
  · exact absurd (by rw [h]) hne
  rcases List.mem_cons.mp hs with h | hs
  · exact absurd (by rw [h]) hne
  rcases List.mem_cons.mp hs with h | hs
  · rw [h]
  rcases List.mem_cons.mp hs with h | hs
  · rw [h]
  · exact absurd hs (List.not_mem_nil s)

theorem refresh_enqueue_precedes_day_write_witness :
    ((runStates (fun l => l)
        (⟨fun _ => [], 0, ⟨[], [], []⟩⟩ : SyncState) 0
        ({ ts := 100, payload := [], refs := [('u' :: [])] } :: [])).getD 2
      (⟨fun _ => [], 0, ⟨[], [], []⟩⟩ : SyncState)).dl
      = runEnqueue (fun l => l) (⟨[], [], []⟩ : DLState)
        ({ ts := 100, payload := [], refs := [('u' :: [])] } :: []) :=
  refresh_enqueue_precedes_day_write (fun l => l)
    (⟨fun _ => [], 0, ⟨[], [], []⟩⟩ : SyncState) 0
    ({ ts := 100, payload := [], refs := [('u' :: [])] } :: [])
    ((runStates (fun l => l)
        (⟨fun _ => [], 0, ⟨[], [], []⟩⟩ : SyncState) 0
        ({ ts := 100, payload := [], refs := [('u' :: [])] } :: [])).getD 2
      (⟨fun _ => [], 0, ⟨[], [], []⟩⟩ : SyncState))
    (List.mem_cons_of_mem _ (List.mem_cons_of_mem _ (List.mem_cons_self _ _)))
    (by decide)

/--
C3 (counterexample).  A reachable intermediate state of
`Channel._refresh_messages` in which a file reference has been
enqueued but its owning message record is not yet on disk, refuting
the claim that a reference is only ever enqueued after the record has
been durably merged.  The state is the one between lines 356-358 (the
enqueue loop) and lines 359-360 (the atomic day-file write): the
downloader queue already holds the reference of the record with
timestamp 100, while the day file for its day is still absent.
-/
theorem refresh_enqueue_before_merge_cex :
    ((runStates (fun l => l)
        (⟨fun _ => [], 0, ⟨[], [], []⟩⟩ : SyncState) 0
        ({ ts := 100, payload := [], refs := [('u' :: [])] } :: [])).getD 1
      (⟨fun _ => [], 0, ⟨[], [], []⟩⟩ : SyncState)).dl.queue
      = (('u' :: []), url_to_filename (fun l => l) ('u' :: [])) :: [] ∧
    ((runStates (fun l => l)
        (⟨fun _ => [], 0, ⟨[], [], []⟩⟩ : SyncState) 0
        ({ ts := 100, payload := [], refs := [('u' :: [])] } :: [])).getD 1
      (⟨fun _ => [], 0, ⟨[], [], []⟩⟩ : SyncState)).archive 0 = [] := by
  constructor
  · rfl
  · rfl
